import Mathlib

/-!
Verification of `bn_mp_exptmod.c` (LibTomMath): the strategy dispatcher
`mp_exptmod` and the generic windowed exponentiation engine `f_mp_exptmod`
with Barrett reduction.

Big integers are embedded as natural numbers; an `mp_int`'s digit vector
`dp[0..used)` is a little-endian `List Nat` of digits, each below
`2 ^ DIGIT_BIT` for canonical values (the digit width `D` is a parameter).
The arithmetic kernel functions (`mp_mod`, `mp_sqr`, `mp_mul`,
`mp_reduce`, `mp_count_bits`, ...) are not part of the source file; they
are modelled from the contracts in the specification (its section 6).

Two renderings of the engine are given:
* a value-level rendering (`f_mp_exptmod`) used for the functional
  claims, where each square/reduce pair is the map `r ↦ r * r % P`; the
  digit scanning loop is rendered with explicit fuel mirroring the C
  `for (;;)` loop with its `digidx` / `bitcnt` / `buf` counters, and
* an instrumented rendering (`runE`) used for the error-handling and
  frame claims, where every fallible kernel call consults an error
  oracle, the `goto` cleanup labels are explicit, and initialisations,
  releases and write destinations of all kernel calls are recorded.
-/

namespace ExptMod

/-- Value of a little-endian digit vector `dp[0..used)` with digit width
`D`: the integer `Σ dp[i] * 2^(D*i)`. -/
def valD (D : Nat) (dp : List Nat) : Nat :=
  dp.foldr (fun d acc => acc * 2 ^ D + d) 0

/-- Fuelled helper for the bit length of a natural number. -/
def nbitsF : Nat → Nat → Nat
  | 0, _ => 0
  | f + 1, n => if n = 0 then 0 else nbitsF f (n / 2) + 1

/-- Modelled from the spec: the kernel contract `bit_length(x) -> int`
(`mp_count_bits`, not part of the source file) — the bit length of the
value of `X`. -/
def mp_count_bits (D : Nat) (dp : List Nat) : Nat :=
  nbitsF (valD D dp) (valD D dp)

/-- Window size selection from the exponent bit count
(`bn_mp_exptmod.c` lines 46-61). -/
def winsize (b : Nat) : Nat :=
  if b ≤ 7 then 2
  else if b ≤ 36 then 3
  else if b ≤ 140 then 4
  else if b ≤ 450 then 5
  else if b ≤ 1303 then 6
  else if b ≤ 3529 then 7
  else 8

/-- The window-size step function transcribed from the specification's
words (section 4.2): `b≤7→2, b≤36→3, b≤140→4, b≤450→5, b≤1303→6,
b≤3529→7, else 8`; to be compared with `winsize` from the source. -/
def winsizeSpec (b : Nat) : Nat :=
  if b ≤ 7 then 2
  else if b ≤ 36 then 3
  else if b ≤ 140 then 4
  else if b ≤ 450 then 5
  else if b ≤ 1303 then 6
  else if b ≤ 3529 then 7
  else 8

/-- `n` iterations of square-then-Barrett-reduce (`mp_sqr` followed by
`mp_reduce`, i.e. `r ↦ r * r % P`), as in the loops at lines 96-103 and
169-176 of `bn_mp_exptmod.c`. -/
def sqrRedIter (P : Nat) : Nat → Nat → Nat
  | 0, r => r
  | n + 1, r => sqrRedIter P n (r * r % P)

/-- The upper-table recurrence (lines 106-113): starting from the
midpoint value `mid`, each next slot is `previous * M[1] % P` where
`G1 = M[1]`. -/
def upperM (P G1 mid : Nat) : Nat → Nat
  | 0 => mid
  | j + 1 => upperM P G1 mid j * G1 % P

/-- The power table `M` after a successful build (lines 63-113):
`M[1] = G mod P`; `M[2^(w-1)]` is `M[1]` squared-and-reduced `w-1`
times; `M[k] = M[k-1] * M[1] % P` for `k` in the upper half; every
other slot keeps the value `0` given to it by `mp_init_size`. -/
def mEntry (w G P : Nat) (k : Nat) : Nat :=
  if k = 1 then G % P
  else if k < 2 ^ (w - 1) then 0
  else if k < 2 ^ w then
    upperM P (G % P) (sqrRedIter P (w - 1) (G % P)) (k - 2 ^ (w - 1))
  else 0

/-- State of the bit-scanning machine (lines 121-190): `mode`,
`bitbuf`, `bitcpy` and the accumulator `res` as in the C source, plus a
ghost `log` recording the index of every full-window table read
`M[bitbuf]` (line 179), used to state the table-access invariant. -/
structure ScanState where
  mode : Nat
  bitbuf : Nat
  bitcpy : Nat
  res : Nat
  log : List Nat
deriving DecidableEq

/-- Processing of one exponent bit `y` (lines 139-189): skip leading
zeros in mode 0, square-and-reduce in mode 1, otherwise accumulate the
bit into the window; when the window is filled, square `winsize` times
and multiply by `M[bitbuf]`, with a reduce after each step. -/
def stepBit (w P : Nat) (M : Nat → Nat) (s : ScanState) (y : Nat) : ScanState :=
  if s.mode = 0 ∧ y = 0 then s
  else if s.mode = 1 ∧ y = 0 then
    { s with res := s.res * s.res % P }
  else
    let bitcpy := s.bitcpy + 1
    let bitbuf := s.bitbuf ||| (y <<< (w - bitcpy))
    if bitcpy = w then
      { mode := 1, bitbuf := 0, bitcpy := 0,
        res := sqrRedIter P w s.res * M bitbuf % P,
        log := s.log ++ [bitbuf] }
    else
      { s with mode := 2, bitbuf := bitbuf, bitcpy := bitcpy }

/-- The scanning loop of lines 129-190, with explicit fuel. `r` is
`digidx + 1` (so `r = 0` encodes the terminal `digidx == -1`), `bitcnt`
and `buf` are as in the source: when `bitcnt` reaches 1 the next digit
is loaded (or the loop breaks when all digits are consumed), and each
iteration extracts the top bit `(buf >> (DIGIT_BIT - 1)) & 1` and
shifts `buf` left. -/
def scanLoop (D w P : Nat) (M : Nat → Nat) (dp : List Nat) :
    Nat → Nat → Nat → Nat → ScanState → Option ScanState
  | 0, _, _, _, _ => none
  | fuel + 1, r, bitcnt, buf, s =>
    if bitcnt = 1 then
      if r = 0 then some s
      else
        let d := dp.getD (r - 1) 0
        scanLoop D w P M dp fuel (r - 1) D (d <<< 1)
          (stepBit w P M s ((d >>> (D - 1)) &&& 1))
    else
      scanLoop D w P M dp fuel r (bitcnt - 1) (buf <<< 1)
        (stepBit w P M s ((buf >>> (D - 1)) &&& 1))

/-- The trailing-window flush loop (lines 195-213), with an explicit
count of square-and-reduce steps as its second component: each of the
`bitcpy` iterations squares-and-reduces `res`, shifts `bitbuf` left and,
when bit `winsize` of the shifted buffer is set, multiplies by
`M1 = M[1]` and reduces. -/
def flushLoopC (P M1 w : Nat) : Nat → Nat → Nat → Nat × Nat
  | 0, r, _ => (r, 0)
  | c + 1, r, bb =>
    let r1 := r * r % P
    let bb1 := bb <<< 1
    let r2 := if bb1 &&& (1 <<< w) ≠ 0 then r1 * M1 % P else r1
    let p := flushLoopC P M1 w c r2 bb1
    (p.1, p.2 + 1)

/-- The end-of-scan flush (lines 192-214): if the scan ended in mode 2
with a partially filled window, run the flush loop for `bitcpy` steps;
otherwise `res` is already the result. -/
def flushPhase (w P M1 : Nat) (s : ScanState) : Nat :=
  if s.mode = 2 ∧ 0 < s.bitcpy then (flushLoopC P M1 w s.bitcpy s.res s.bitbuf).1
  else s.res

/-- The scan portion of `f_mp_exptmod`: window size from the exponent's
bit count, table `M`, and the loop started as at lines 121-128
(`digidx = X->used - 1`, `bitcnt = 1`, `buf = 0`, `mode = 0`,
`res = 1`). Fuel `D * used + 1` covers one iteration per exponent bit
plus the terminal break. -/
def engineScan (D G : Nat) (dp : List Nat) (P : Nat) : Option ScanState :=
  let w := winsize (mp_count_bits D dp)
  scanLoop D w P (mEntry w G P) dp (D * dp.length + 1) dp.length 1 0
    ⟨0, 0, 0, 1, []⟩

/-- The generic windowed exponentiation engine `f_mp_exptmod`
(lines 38-225) on values: the scanned accumulator followed by the
trailing-window flush (which multiplies by `M[1] = G mod P`). `none`
would mean the loop fuel ran out, which cannot happen. -/
def f_mp_exptmod (D G : Nat) (dp : List Nat) (P : Nat) : Option Nat :=
  let w := winsize (mp_count_bits D dp)
  (engineScan D G dp P).map (flushPhase w P (mEntry w G P 1))

/-- Modelled from the spec: the kernel contract `is_odd(x) -> bool`
(`mp_isodd`, not part of the source file). -/
def mp_isodd (D : Nat) (dp : List Nat) : Bool :=
  decide (valD D dp % 2 = 1)

/-- The strategy dispatcher `mp_exptmod` (lines 24-36). The
Diminished-Radix classification `dr = mp_dr_is_modulus(P)`, the cutoff
`MONTGOMERY_EXPT_CUTOFF` and the fast-path engine `mp_exptmod_fast` are
external collaborators, taken as parameters (`dr`, `cutoff`, and the
fast path's result `fast`). -/
def mp_exptmod (D cutoff dr : Nat) (fast : Option Nat) (G : Nat)
    (Xdp Pdp : List Nat) : Option Nat :=
  if ((mp_isodd D Pdp = true ∧ Pdp.length < cutoff) ∨ dr = 1) ∧ 4 < Pdp.length
  then fast
  else f_mp_exptmod D G Xdp (valD D Pdp)

/-- The dispatch condition transcribed from the specification's words
(section 4.1 / claim C7): `P` odd and its digit count below the
configured cutoff, or `P` of the Diminished-Radix form, and in addition
`P`'s digit count above the minimum threshold of 4 digits. -/
def dispatchSpecCond (D cutoff dr : Nat) (Pdp : List Nat) : Prop :=
  ((valD D Pdp % 2 = 1 ∧ Pdp.length < cutoff) ∨ dr = 1) ∧ 4 < Pdp.length

/-- The exponent bits contributed by one digit `d` of width `D`,
most-significant bit first, exactly as extracted by lines 139-141:
bit `i` of the list is `(d >> (D - 1 - i)) & 1`. -/
def digitBits : Nat → Nat → List Nat
  | 0, _ => []
  | k + 1, d => ((d >>> k) &&& 1) :: digitBits k d

/-! ## Instrumented rendering

For the error-handling and frame claims, the engine is rendered once
more with every fallible kernel call consulting an error oracle
(`oracle k` is the status of the `k`-th kernel call, `0 = MP_OKAY`),
with the `goto` cleanup labels explicit, and with ghost traces of the
initialisations, the releases and the destination cells of all kernel
writes. The operands `G`, `X`, `P` are cells of their own (`gv`, `xv`,
`pv`); the engine's locals are `res`, `mu` and the table slots. -/

/-- The memory cells a kernel call can target. -/
inductive Cell
  | res | mu | slot (i : Nat) | yv | gv | xv | pv
deriving DecidableEq

/-- The cleanup labels of `f_mp_exptmod`: the inline cleanup of the
slot-allocation loop (lines 66-69, releasing slots `[0, x)`), and the
cascade `__RES` / `__MU` / `__M` of lines 218-223. -/
inductive Label
  | lInit (x : Nat) | lM | lMU | lRES
deriving DecidableEq

/-- Mutable state of the instrumented engine: the kernel-call counter,
the values of `Y`, `res`, `mu` and the table, and the ghost traces. -/
structure EState where
  k : Nat
  y : Nat
  resv : Nat
  muv : Nat
  tbl : Nat → Nat
  inits : List Cell
  writes : List Cell

/-- Result of one invocation: the returned status, the final value of
the output parameter `Y`, and the ghost traces (cells initialised,
cells released by the cleanup code, destination cells of all kernel
writes). -/
structure EngineOut where
  err : Nat
  y : Nat
  inits : List Cell
  clears : List Cell
  writes : List Cell
deriving DecidableEq

/-- Failure: the kernel status, the cleanup label jumped to, and the
state at that moment. -/
abbrev EErr := Nat × Label × EState

/-- Sequencing that propagates a failure unchanged, as the C `goto`
does. -/
def eseq (x : Except EErr EState) (g : EState → Except EErr EState) :
    Except EErr EState :=
  match x with
  | .error e => .error e
  | .ok s => g s

/-- A fallible kernel call: on success apply the value update `f` and
record the destination cells `dest`; on failure jump to cleanup label
`lab` with the kernel's status. -/
def kop (oracle : Nat → Nat) (lab : Label) (dest : List Cell)
    (f : EState → EState) (st : EState) : Except EErr EState :=
  if oracle st.k = 0 then
    let st1 := f { st with k := st.k + 1 }
    .ok { st1 with writes := st1.writes ++ dest }
  else .error (oracle st.k, lab, { st with k := st.k + 1 })

/-- A fallible initialisation (`mp_init` / `mp_init_size`): as `kop`,
and additionally records the acquisition of cell `c`. -/
def kinit (oracle : Nat → Nat) (lab : Label) (c : Cell)
    (f : EState → EState) (st : EState) : Except EErr EState :=
  if oracle st.k = 0 then
    let st1 := f { st with k := st.k + 1 }
    .ok { st1 with inits := st1.inits ++ [c], writes := st1.writes ++ [c] }
  else .error (oracle st.k, lab, { st with k := st.k + 1 })

/-- An infallible write (`mp_set`, `mp_exch`). -/
def wset (dest : List Cell) (f : EState → EState) (st : EState) : EState :=
  let st1 := f st
  { st1 with writes := st1.writes ++ dest }

/-- Update of one table slot. -/
def setTbl (i v : Nat) (st : EState) : EState :=
  { st with tbl := fun j => if j = i then v else st.tbl j }

/-- The slot-allocation loop (lines 63-71): `mp_init_size` for each of
the `2^winsize` slots; on failure at slot `x` the inline cleanup
releases slots `[0, x)` and the error is returned directly. -/
def initLoop (oracle : Nat → Nat) : Nat → Nat → EState → Except EErr EState
  | 0, _, st => .ok st
  | cnt + 1, x, st =>
    if oracle st.k = 0 then
      initLoop oracle cnt (x + 1)
        { st with k := st.k + 1,
                  tbl := fun j => if j = x then 0 else st.tbl j,
                  inits := st.inits ++ [Cell.slot x],
                  writes := st.writes ++ [Cell.slot x] }
    else .error (oracle st.k, Label.lInit x, { st with k := st.k + 1 })

/-- The midpoint squaring loop (lines 96-103): `winsize - 1` rounds of
`mp_sqr` and `mp_reduce` on `M[2^(winsize-1)]`, failures going to
`__MU`. -/
def midLoop (oracle : Nat → Nat) (P mid : Nat) : Nat → EState → Except EErr EState
  | 0, st => .ok st
  | n + 1, st =>
    eseq (kop oracle .lMU [Cell.slot mid]
        (fun s => setTbl mid (s.tbl mid * s.tbl mid) s) st) (fun st =>
      eseq (kop oracle .lMU [Cell.slot mid]
          (fun s => setTbl mid (s.tbl mid % P) s) st)
        (midLoop oracle P mid n))

/-- The upper-table loop (lines 106-113): `M[x] = M[x-1] * M[1]`
followed by a Barrett reduce, failures going to `__MU`. -/
def upLoopE (oracle : Nat → Nat) (P : Nat) : Nat → Nat → EState → Except EErr EState
  | 0, _, st => .ok st
  | n + 1, x, st =>
    eseq (kop oracle .lMU [Cell.slot x]
        (fun s => setTbl x (s.tbl (x - 1) * s.tbl 1) s) st) (fun st =>
      eseq (kop oracle .lMU [Cell.slot x]
          (fun s => setTbl x (s.tbl x % P) s) st)
        (upLoopE oracle P n (x + 1)))

/-- One `mp_sqr` on `res` followed by one `mp_reduce`, with failures
going to label `lab` (`__RES` at lines 153-158, 170-175 and
196-201). -/
def resSqrRed (oracle : Nat → Nat) (P : Nat) (lab : Label) (st : EState) :
    Except EErr EState :=
  eseq (kop oracle lab [Cell.res] (fun s => { s with resv := s.resv * s.resv }) st)
    (kop oracle lab [Cell.res] (fun s => { s with resv := s.resv % P }))

/-- The `winsize` square-and-reduce rounds of a filled window
(lines 169-176), failures going to `__RES`. -/
def winSqrs (oracle : Nat → Nat) (P : Nat) : Nat → EState → Except EErr EState
  | 0, st => .ok st
  | n + 1, st => eseq (resSqrRed oracle P .lRES st) (winSqrs oracle P n)

/-- The scan-machine registers `mode`, `bitbuf`, `bitcpy` of the
instrumented rendering. -/
structure ScanMS where
  mode : Nat
  bitbuf : Nat
  bitcpy : Nat
deriving DecidableEq

/-- As `eseq`, for phases that also carry the scan-machine
registers. -/
def eseq2 (x : Except EErr (ScanMS × EState))
    (g : ScanMS × EState → Except EErr (ScanMS × EState)) :
    Except EErr (ScanMS × EState) :=
  match x with
  | .error e => .error e
  | .ok p => g p

/-- As `eseq`, from the scan phase back into a plain state phase. -/
def eseqMS (x : Except EErr (ScanMS × EState))
    (g : ScanMS × EState → Except EErr EState) : Except EErr EState :=
  match x with
  | .error e => .error e
  | .ok p => g p

/-- Instrumented processing of one exponent bit (lines 139-189). The
failures of the filled-window multiply and its reduce (lines 179-184)
go to `__MU`, exactly as the source's `goto`s do. -/
def stepBitE (oracle : Nat → Nat) (w P : Nat) (ms : ScanMS) (y : Nat)
    (st : EState) : Except EErr (ScanMS × EState) :=
  if ms.mode = 0 ∧ y = 0 then .ok (ms, st)
  else if ms.mode = 1 ∧ y = 0 then
    (resSqrRed oracle P .lRES st).map (fun st => (ms, st))
  else
    let bitcpy := ms.bitcpy + 1
    let bitbuf := ms.bitbuf ||| (y <<< (w - bitcpy))
    if bitcpy = w then
      (eseq (eseq (winSqrs oracle P w st)
          (kop oracle .lMU [Cell.res]
            (fun s => { s with resv := s.resv * s.tbl bitbuf })))
        (kop oracle .lMU [Cell.res]
          (fun s => { s with resv := s.resv % P }))).map
        (fun st => (⟨1, 0, 0⟩, st))
    else .ok (⟨2, bitbuf, bitcpy⟩, st)

/-- The instrumented scanning loop (lines 129-190), fuelled like
`scanLoop`. -/
def scanLoopE (oracle : Nat → Nat) (D w P : Nat) (dp : List Nat) :
    Nat → Nat → Nat → Nat → ScanMS → EState → Except EErr (ScanMS × EState)
  | 0, _, _, _, ms, st => .ok (ms, st)
  | fuel + 1, r, bitcnt, buf, ms, st =>
    if bitcnt = 1 then
      if r = 0 then .ok (ms, st)
      else
        let d := dp.getD (r - 1) 0
        eseq2 (stepBitE oracle w P ms ((d >>> (D - 1)) &&& 1) st)
          (fun p => scanLoopE oracle D w P dp fuel (r - 1) D (d <<< 1) p.1 p.2)
    else
      eseq2 (stepBitE oracle w P ms ((buf >>> (D - 1)) &&& 1) st)
        (fun p => scanLoopE oracle D w P dp fuel r (bitcnt - 1) (buf <<< 1) p.1 p.2)

/-- The instrumented trailing-window flush (lines 193-214): square and
reduce, shift the window buffer, and multiply by `M[1]` (and reduce)
when bit `winsize` is set; all failures go to `__RES`. -/
def flushE (oracle : Nat → Nat) (w P : Nat) : Nat → Nat → EState → Except EErr EState
  | 0, _, st => .ok st
  | c + 1, bb, st =>
    eseq (resSqrRed oracle P .lRES st) (fun st =>
      let bb1 := bb <<< 1
      if bb1 &&& (1 <<< w) ≠ 0 then
        eseq (kop oracle .lRES [Cell.res]
            (fun s => { s with resv := s.resv * s.tbl 1 }) st) (fun st =>
          eseq (kop oracle .lRES [Cell.res]
              (fun s => { s with resv := s.resv % P }) st)
            (flushE oracle w P c bb1))
      else flushE oracle w P c bb1 st)

/-- Modelled from the spec: `barrett_setup(m)` (`mp_reduce_setup`, not
part of the source file) computes a constant derived from `P`; only
the fact that a value is stored into `mu` matters to the claims. -/
def barrettMu (P : Nat) : Nat := 2 ^ (2 * nbitsF P P) / P

/-- The slot cells `0 .. n-1`. -/
def slotsList (n : Nat) : List Cell := (List.range n).map Cell.slot

/-- The cells released on each exit path: the label cascade
`__RES: mp_clear(&res); __MU: mp_clear(&mu); __M: clear all slots`
(lines 218-223), the inline cleanup of the allocation loop
(lines 66-69), and the success path, which falls through all three
labels. -/
def clearsFor (w : Nat) : Option Label → List Cell
  | none => Cell.res :: Cell.mu :: slotsList (2 ^ w)
  | some .lRES => Cell.res :: Cell.mu :: slotsList (2 ^ w)
  | some .lMU => Cell.mu :: slotsList (2 ^ w)
  | some .lM => slotsList (2 ^ w)
  | some (.lInit x) => slotsList x

/-- The body of the instrumented engine: the whole of `f_mp_exptmod`
(lines 38-225) under an error oracle, up to the cleanup code. `y0` is
the value held by the caller's `Y` before the call. -/
def runBody (oracle : Nat → Nat) (D G : Nat) (xdp : List Nat) (P y0 : Nat) :
    Except EErr EState :=
  let w := winsize (mp_count_bits D xdp)
  let mid := 2 ^ (w - 1)
  let st0 : EState := ⟨0, y0, 0, 0, fun _ => 0, [], []⟩
  eseq (initLoop oracle (2 ^ w) 0 st0) (fun st =>
  eseq (kinit oracle .lM Cell.mu (fun s => { s with muv := 0 }) st) (fun st =>
  eseq (kop oracle .lMU [Cell.mu] (fun s => { s with muv := barrettMu P }) st) (fun st =>
  eseq (kop oracle .lMU [Cell.slot 1] (setTbl 1 (G % P)) st) (fun st =>
  eseq (kop oracle .lMU [Cell.slot mid] (fun s => setTbl mid (s.tbl 1) s) st) (fun st =>
  eseq (midLoop oracle P mid (w - 1) st) (fun st =>
  eseq (upLoopE oracle P (2 ^ w - (mid + 1)) (mid + 1) st) (fun st =>
  eseq (kinit oracle .lMU Cell.res (fun s => { s with resv := 0 }) st) (fun st =>
  eseqMS (scanLoopE oracle D w P xdp (D * xdp.length + 1) xdp.length 1 0
      ⟨0, 0, 0⟩ (wset [Cell.res] (fun s => { s with resv := 1 }) st))
    (fun p =>
      eseq (if p.1.mode = 2 ∧ 0 < p.1.bitcpy
            then flushE oracle w P p.1.bitcpy p.1.bitbuf p.2
            else .ok p.2) (fun st =>
        .ok (wset [Cell.res, Cell.yv]
          (fun s => { s with resv := s.y, y := s.resv }) st)))))))))))

/-- The instrumented engine: `runBody` followed by the cleanup cascade,
producing the returned status, the final `Y`, and the ghost traces. -/
def runE (oracle : Nat → Nat) (D G : Nat) (xdp : List Nat) (P y0 : Nat) :
    EngineOut :=
  let w := winsize (mp_count_bits D xdp)
  match runBody oracle D G xdp P y0 with
  | .ok st => ⟨0, st.y, st.inits, clearsFor w none, st.writes⟩
  | .error (e, lab, st) => ⟨e, st.y, st.inits, clearsFor w (some lab), st.writes⟩

/-! ## Statement-level predicates -/

/-- The complete exponent bit sequence, most significant digit first,
each digit contributing its `D` bits most-significant-first — the
sequence the loop of lines 129-190 extracts. -/
def bitsOf (D : Nat) (dp : List Nat) : List Nat :=
  dp.reverse.flatMap (digitBits D)

/-- The scan-machine invariant: `n` is the value of the exponent bits
consumed so far. In mode 0 nothing has been consumed and `res` is
still 1; in mode 1 `res = G^n mod P`; in mode 2 a window of `bitcpy`
bits with value `v` (top bit set) is open, held top-aligned in
`bitbuf`, and `res` covers the prefix `m`. Every logged full-window
table index lies in the populated upper half. -/
def Inv (w P G n : Nat) (s : ScanState) : Prop :=
  (∀ i ∈ s.log, 2 ^ (w - 1) ≤ i ∧ i < 2 ^ w) ∧
  ((s.mode = 0 ∧ s.bitcpy = 0 ∧ s.bitbuf = 0 ∧ s.res = 1 ∧ n = 0) ∨
   (s.mode = 1 ∧ s.bitcpy = 0 ∧ s.bitbuf = 0 ∧ 1 ≤ n ∧ s.res = G ^ n % P) ∨
   (s.mode = 2 ∧ 1 ≤ s.bitcpy ∧ s.bitcpy < w ∧
     ∃ m v, n = m * 2 ^ s.bitcpy + v ∧ 2 ^ (s.bitcpy - 1) ≤ v ∧
       v < 2 ^ s.bitcpy ∧ s.bitbuf = v * 2 ^ (w - s.bitcpy) ∧
       ((m = 0 ∧ s.res = 1) ∨ (1 ≤ m ∧ s.res = G ^ m % P))))

/-- A cell that is not one of the input operands `G`, `X`, `P`. -/
def goodCell (c : Cell) : Prop :=
  c ≠ Cell.gv ∧ c ≠ Cell.xv ∧ c ≠ Cell.pv

/-- Mid-run invariant of the instrumented engine: `Y` still holds the
caller's value `y0` (it is written only by the final `mp_exch`), and
every write destination so far avoids the input operands. -/
def okSt (y0 : Nat) (s : EState) : Prop :=
  s.y = y0 ∧ ∀ c ∈ s.writes, goodCell c

/-- `okSt` holds at the end of a phase, whether it succeeded or
failed. -/
def presO (y0 : Nat) : Except EErr EState → Prop
  | .ok s => okSt y0 s
  | .error (_, _, s) => okSt y0 s

/-- As `presO`, for the scan phase which also carries the machine
registers. -/
def presO2 (y0 : Nat) : Except EErr (ScanMS × EState) → Prop
  | .ok p => okSt y0 p.2
  | .error (_, _, s) => okSt y0 s

/-- Final property of one run: on failure `Y` is untouched; on every
outcome no write targeted the input operands. -/
def presF (y0 : Nat) : Except EErr EState → Prop
  | .ok s => ∀ c ∈ s.writes, goodCell c
  | .error (_, _, s) => s.y = y0 ∧ ∀ c ∈ s.writes, goodCell c

/-! ## Window size -/

lemma winsize_mono {a b : Nat} (h : a ≤ b) : winsize a ≤ winsize b := by
  unfold winsize; split_ifs <;> omega

lemma two_le_winsize (b : Nat) : 2 ≤ winsize b := by
  unfold winsize; split_ifs <;> omega

/-! ## Modular-arithmetic helpers -/

lemma mul_modCast (P G a b : Nat) :
    G ^ a % P * (G ^ b % P) % P = G ^ (a + b) % P := by
  rw [pow_add]
  conv_rhs => rw [Nat.mul_mod]

lemma sqrRedIter_pow (P G : Nat) :
    ∀ n m r, r = G ^ m % P → sqrRedIter P n r = G ^ (m * 2 ^ n) % P
  | 0, m, r, h => by simpa [sqrRedIter] using h
  | n + 1, m, r, h => by
    have h2 : r * r % P = G ^ (m + m) % P := by rw [h, mul_modCast]
    have ih := sqrRedIter_pow P G n (m + m) _ h2
    rw [sqrRedIter, ih]
    have he : (m + m) * 2 ^ n = m * 2 ^ (n + 1) := by ring
    rw [he]

lemma sqrRedIter_one (P G n : Nat) (hn : 1 ≤ n) :
    sqrRedIter P n 1 = G ^ 0 % P := by
  obtain ⟨n', rfl⟩ : ∃ n', n = n' + 1 := ⟨n - 1, by omega⟩
  have h1 : (1 : Nat) * 1 % P = G ^ 0 % P := by norm_num
  have ih := sqrRedIter_pow P G n' 0 (1 * 1 % P) h1
  rw [sqrRedIter]
  simpa using ih

lemma sqrRedIter_res (P G n m r : Nat)
    (h : r = G ^ m % P ∨ (m = 0 ∧ r = 1 ∧ 1 ≤ n)) :
    sqrRedIter P n r = G ^ (m * 2 ^ n) % P := by
  rcases h with h | ⟨rfl, rfl, hn⟩
  · exact sqrRedIter_pow P G n m r h
  · simpa using sqrRedIter_one P G n hn

/-! ## Power table -/

lemma upperM_pow (P G e : Nat) :
    ∀ j, upperM P (G % P) (G ^ e % P) j = G ^ (e + j) % P
  | 0 => by simp [upperM]
  | j + 1 => by
    rw [upperM, upperM_pow P G e j]
    have h1 : G % P = G ^ 1 % P := by norm_num
    rw [h1, mul_modCast, Nat.add_assoc]

lemma mEntry_one (w G P : Nat) : mEntry w G P 1 = G % P := by
  simp [mEntry]

lemma mEntry_upper (w G P k : Nat) (hw : 2 ≤ w) (hk1 : 2 ^ (w - 1) ≤ k)
    (hk2 : k < 2 ^ w) : mEntry w G P k = G ^ k % P := by
  have h2 : (2 : Nat) ^ 1 ≤ 2 ^ (w - 1) :=
    Nat.pow_le_pow_right (by norm_num) (by omega)
  have hk1' : k ≠ 1 := by simp at h2; omega
  have hmid : sqrRedIter P (w - 1) (G % P) = G ^ 2 ^ (w - 1) % P := by
    have h1 : G % P = G ^ 1 % P := by norm_num
    have := sqrRedIter_pow P G (w - 1) 1 (G % P) h1
    simpa using this
  have he : 2 ^ (w - 1) + (k - 2 ^ (w - 1)) = k := by omega
  unfold mEntry
  rw [if_neg hk1', if_neg (by omega), if_pos hk2, hmid, upperM_pow, he]

/-! ## The scan-machine invariant -/

lemma lor_window (v k y : Nat) (hy : y ≤ 1) :
    (v * 2 ^ (k + 1)) ||| (y <<< k) = (2 * v + y) * 2 ^ k := by
  have h1 : y * 2 ^ k ≤ 1 * 2 ^ k := Nat.mul_le_mul_right _ hy
  have h2 : (2 : Nat) ^ (k + 1) = 2 * 2 ^ k := by ring
  have h3 : 0 < 2 ^ k := Nat.two_pow_pos k
  have hb : y * 2 ^ k < 2 ^ (k + 1) := by omega
  rw [Nat.shiftLeft_eq, Nat.mul_comm v, ← Nat.mul_add_lt_is_or hb v]
  ring

lemma stepBit_of_skip (w P : Nat) (M : Nat → Nat) (s : ScanState)
    (h0 : s.mode = 0) : stepBit w P M s 0 = s := by
  unfold stepBit
  rw [if_pos ⟨h0, rfl⟩]

lemma stepBit_of_sq (w P : Nat) (M : Nat → Nat) (s : ScanState)
    (h1 : s.mode = 1) : stepBit w P M s 0 = { s with res := s.res * s.res % P } := by
  unfold stepBit
  rw [if_neg (by simp [h1]), if_pos ⟨h1, rfl⟩]

lemma stepBit_of_acc (w P : Nat) (M : Nat → Nat) (s : ScanState) (y : Nat)
    (h1 : ¬(s.mode = 0 ∧ y = 0)) (h2 : ¬(s.mode = 1 ∧ y = 0))
    (h3 : s.bitcpy + 1 ≠ w) :
    stepBit w P M s y =
      { s with mode := 2,
               bitbuf := s.bitbuf ||| (y <<< (w - (s.bitcpy + 1))),
               bitcpy := s.bitcpy + 1 } := by
  simp only [stepBit]
  rw [if_neg h1, if_neg h2, if_neg h3]

lemma stepBit_of_full (w P : Nat) (M : Nat → Nat) (s : ScanState) (y : Nat)
    (h1 : ¬(s.mode = 0 ∧ y = 0)) (h2 : ¬(s.mode = 1 ∧ y = 0))
    (h3 : s.bitcpy + 1 = w) :
    stepBit w P M s y =
      { mode := 1, bitbuf := 0, bitcpy := 0,
        res := sqrRedIter P w s.res *
          M (s.bitbuf ||| (y <<< (w - (s.bitcpy + 1)))) % P,
        log := s.log ++ [s.bitbuf ||| (y <<< (w - (s.bitcpy + 1)))] } := by
  simp only [stepBit]
  rw [if_neg h1, if_neg h2, if_pos h3]

lemma inv_step (w P G : Nat) (M : Nat → Nat)
    (HM : ∀ k, 2 ^ (w - 1) ≤ k → k < 2 ^ w → M k = G ^ k % P)
    (hw : 2 ≤ w) (n y : Nat) (hy : y ≤ 1) (s : ScanState)
    (h : Inv w P G n s) : Inv w P G (2 * n + y) (stepBit w P M s y) := by
  obtain ⟨hlog, hcase⟩ := h
  rcases hcase with ⟨h0, hc, hb, hr, hn⟩ | ⟨h1, hc, hb, hn, hr⟩ |
    ⟨h2, hc1, hc2, m, v, hnv, hv1, hv2, hbb, hres⟩
  · -- mode 0: leading zeros are skipped, a one bit opens the window
    rcases Nat.le_one_iff_eq_zero_or_eq_one.mp hy with rfl | rfl
    · rw [stepBit_of_skip w P M s h0]
      exact ⟨hlog, Or.inl ⟨h0, hc, hb, hr, by omega⟩⟩
    · rw [stepBit_of_acc w P M s 1 (by simp) (by simp) (by omega)]
      refine ⟨hlog, Or.inr (Or.inr ⟨rfl, show 1 ≤ s.bitcpy + 1 by omega,
        show s.bitcpy + 1 < w by omega, 0, 1, ?_, ?_, ?_, ?_, ?_⟩)⟩
      · simp [hn]
      · simp [hc]
      · rw [hc]; norm_num
      · rw [hb, Nat.zero_or, Nat.shiftLeft_eq, hc, Nat.one_mul]
      · exact Or.inl ⟨rfl, hr⟩
  · -- mode 1: a zero bit squares, a one bit opens the window
    rcases Nat.le_one_iff_eq_zero_or_eq_one.mp hy with rfl | rfl
    · rw [stepBit_of_sq w P M s h1]
      refine ⟨hlog, Or.inr (Or.inl ⟨h1, hc, hb, by omega, ?_⟩)⟩
      show s.res * s.res % P = G ^ (2 * n + 0) % P
      rw [hr, mul_modCast]
      have he : n + n = 2 * n + 0 := by omega
      rw [he]
    · rw [stepBit_of_acc w P M s 1 (by simp) (by simp) (by omega)]
      refine ⟨hlog, Or.inr (Or.inr ⟨rfl, show 1 ≤ s.bitcpy + 1 by omega,
        show s.bitcpy + 1 < w by omega, n, 1, ?_, ?_, ?_, ?_, ?_⟩)⟩
      · rw [hc]; ring
      · simp [hc]
      · rw [hc]; norm_num
      · rw [hb, Nat.zero_or, Nat.shiftLeft_eq, hc, Nat.one_mul]
      · exact Or.inr ⟨hn, hr⟩
  · -- mode 2: the bit joins the window; a filled window squares and
    -- multiplies by the table entry
    have hknz : s.bitcpy - 1 + 1 = s.bitcpy := by omega
    have e1 : (2 : Nat) ^ s.bitcpy = 2 * 2 ^ (s.bitcpy - 1) := by
      rw [← pow_succ', hknz]
    have e2 : (2 : Nat) ^ (s.bitcpy + 1) = 2 * 2 ^ s.bitcpy := by
      rw [← pow_succ']
    have h3 : 0 < 2 ^ (s.bitcpy - 1) := Nat.two_pow_pos _
    have hk : w - s.bitcpy = (w - (s.bitcpy + 1)) + 1 := by omega
    have hidx : s.bitbuf ||| (y <<< (w - (s.bitcpy + 1))) =
        (2 * v + y) * 2 ^ (w - (s.bitcpy + 1)) := by
      rw [hbb, hk]
      exact lor_window v _ y hy
    by_cases hcw : s.bitcpy + 1 = w
    · -- window filled
      have ew : (2 : Nat) ^ w = 2 * 2 ^ s.bitcpy := by rw [← hcw, e2]
      have hidx0 : s.bitbuf ||| (y <<< (w - (s.bitcpy + 1))) = 2 * v + y := by
        rw [hidx, hcw]
        simp
      have hvb1 : 2 ^ (w - 1) ≤ 2 * v + y := by
        have hcx : w - 1 = s.bitcpy := by omega
        rw [hcx]
        omega
      have hvb2 : 2 * v + y < 2 ^ w := by omega
      have hsq : sqrRedIter P w s.res = G ^ (m * 2 ^ w) % P := by
        refine sqrRedIter_res P G w m s.res ?_
        rcases hres with ⟨hm, hr⟩ | ⟨hm, hr⟩
        · exact Or.inr ⟨hm, hr, by omega⟩
        · exact Or.inl hr
      have he : m * 2 ^ w + (2 * v + y) = 2 * n + y := by
        rw [hnv, ew]
        ring
      rw [stepBit_of_full w P M s y (by simp [h2]) (by simp [h2]) hcw]
      refine ⟨?_, Or.inr (Or.inl ⟨rfl, rfl, rfl, by omega, ?_⟩)⟩
      · intro i hi
        rcases List.mem_append.mp hi with hi | hi
        · exact hlog i hi
        · rw [List.mem_singleton.mp hi, hidx0]
          exact ⟨hvb1, hvb2⟩
      · show sqrRedIter P w s.res * M (s.bitbuf ||| (y <<< (w - (s.bitcpy + 1)))) % P =
          G ^ (2 * n + y) % P
        rw [hidx0, hsq, HM _ hvb1 hvb2, mul_modCast, he]
    · -- window still open
      rw [stepBit_of_acc w P M s y (by simp [h2]) (by simp [h2]) hcw]
      refine ⟨hlog, Or.inr (Or.inr ⟨rfl, show 1 ≤ s.bitcpy + 1 by omega,
        show s.bitcpy + 1 < w by omega, m, 2 * v + y,
        ?_, ?_, ?_, hidx, ?_⟩)⟩
      · show 2 * n + y = m * 2 ^ (s.bitcpy + 1) + (2 * v + y)
        rw [hnv, e2]
        ring
      · show 2 ^ (s.bitcpy + 1 - 1) ≤ 2 * v + y
        have hcx : s.bitcpy + 1 - 1 = s.bitcpy := by omega
        rw [hcx]
        omega
      · show 2 * v + y < 2 ^ (s.bitcpy + 1)
        omega
      · exact hres

/-! ## The trailing-window flush -/

lemma flushLoopC_count (P M1 w : Nat) :
    ∀ c r bb, (flushLoopC P M1 w c r bb).2 = c
  | 0, _, _ => rfl
  | c + 1, r, bb => by
    simp only [flushLoopC]
    rw [flushLoopC_count P M1 w c]

lemma flushLoopC_val (P G w : Nat) :
    ∀ c m r bb, c ≤ w → (r = G ^ m % P ∨ (m = 0 ∧ r = 1 ∧ 1 ≤ c)) →
      (flushLoopC P (G % P) w c r bb).1 =
        G ^ (m * 2 ^ c + bb / 2 ^ (w - c) % 2 ^ c) % P
  | 0, m, r, bb, _, h => by
    rcases h with h | ⟨_, _, h0⟩
    · simpa [flushLoopC, Nat.mod_one] using h
    · omega
  | c + 1, m, r, bb, hcw, h => by
    have hwc : w - c = (w - (c + 1)) + 1 := by omega
    have hq2 : (2 : Nat) ^ (w - c) = 2 * 2 ^ (w - (c + 1)) := by
      rw [hwc, pow_succ']
    -- the shifted buffer and the tested bit
    have hbb1 : bb <<< 1 = 2 * bb := by
      rw [Nat.shiftLeft_eq]; ring
    set q := bb / 2 ^ (w - (c + 1)) with hq
    have hqdiv : 2 * bb / 2 ^ (w - c) = q := by
      rw [hq2, Nat.mul_div_mul_left _ _ (by norm_num)]
    set t := q / 2 ^ c % 2 with ht
    have htop : q / 2 ^ c = bb / 2 ^ (w - 1) := by
      rw [hq, Nat.div_div_eq_div_mul, ← pow_add]
      congr 2
      omega
    have htest : (2 * bb &&& (1 <<< w) ≠ 0) ↔ t = 1 := by
      have hw2 : (2 : Nat) ^ w = 2 * 2 ^ (w - 1) := by
        rw [← pow_succ']
        congr 1
        omega
      have hdd : 2 * bb / 2 ^ w = bb / 2 ^ (w - 1) := by
        rw [hw2, Nat.mul_div_mul_left _ _ (by norm_num)]
      rw [Nat.shiftLeft_eq 1 w, Nat.one_mul, Nat.and_two_pow,
        Nat.testBit_to_div_mod, hdd, ht, htop]
      rcases Nat.mod_two_eq_zero_or_one (bb / 2 ^ (w - 1)) with he | he <;>
        simp [he, Nat.pos_iff_ne_zero.mp (Nat.two_pow_pos w)]
    -- the value carried into the recursive call
    have hr2 : (if 2 * bb &&& (1 <<< w) ≠ 0 then r * r % P * (G % P) % P
        else r * r % P) = G ^ (2 * m + t) % P := by
      have hrr : r * r % P = G ^ (2 * m) % P := by
        rcases h with hrm | ⟨hm0, hr1, _⟩
        · rw [hrm, mul_modCast]
          congr 2
          omega
        · rw [hm0, hr1]
          norm_num
      by_cases hb : 2 * bb &&& (1 <<< w) ≠ 0
      · rw [if_pos hb, hrr]
        have h1 : G % P = G ^ 1 % P := by norm_num
        rw [h1, mul_modCast]
        have heq : t = 1 := htest.mp hb
        rw [heq]
      · rw [if_neg hb, hrr]
        have heq : t = 0 := by
          rcases Nat.mod_two_eq_zero_or_one (q / 2 ^ c) with he | he
          · rw [ht, he]
          · exact absurd (htest.mpr (ht ▸ he)) hb
        rw [heq, Nat.add_zero]
    -- the mod-2^(c+1) decomposition of q
    have hdec : q % 2 ^ (c + 1) = 2 ^ c * t + q % 2 ^ c := by
      have h1 : (2 : Nat) ^ (c + 1) = 2 ^ c * 2 := by ring
      have h2 := Nat.div_add_mod (q % (2 ^ c * 2)) (2 ^ c)
      rw [Nat.mod_mul_right_div_self] at h2
      rw [Nat.mod_mod_of_dvd _ ⟨2, rfl⟩] at h2
      rw [h1, ht]
      omega
    simp only [flushLoopC]
    rw [hbb1]
    rw [flushLoopC_val P G w c (2 * m + t) _ (2 * bb) (by omega) (Or.inl hr2),
      hqdiv]
    have he : (2 * m + t) * 2 ^ c + q % 2 ^ c =
        m * 2 ^ (c + 1) + q % 2 ^ (c + 1) := by
      rw [hdec]
      ring
    rw [he]

/-! ## Bit sequences -/

lemma digitBits_le_one : ∀ k d, ∀ b ∈ digitBits k d, b ≤ 1
  | 0, d => by simp [digitBits]
  | k + 1, d => by
    intro b hb
    rcases List.mem_cons.mp hb with rfl | hb
    · exact Nat.and_le_right
    · exact digitBits_le_one k d b hb

lemma bitsOf_le_one (D : Nat) (dp : List Nat) : ∀ b ∈ bitsOf D dp, b ≤ 1 := by
  intro b hb
  rcases List.mem_flatMap.mp hb with ⟨d, _, hbd⟩
  exact digitBits_le_one D d b hbd

lemma foldl_digitBits :
    ∀ k d n, List.foldl (fun a b => 2 * a + b) n (digitBits k d) =
      n * 2 ^ k + d % 2 ^ k
  | 0, d, n => by simp [digitBits, Nat.mod_one]
  | k + 1, d, n => by
    simp only [digitBits, List.foldl_cons]
    rw [foldl_digitBits k d (2 * n + ((d >>> k) &&& 1))]
    have hbit : (d >>> k) &&& 1 = d / 2 ^ k % 2 := by
      rw [Nat.and_one_is_mod, Nat.shiftRight_eq_div_pow]
    have hdec : d % 2 ^ (k + 1) = 2 ^ k * (d / 2 ^ k % 2) + d % 2 ^ k := by
      have h1 : (2 : Nat) ^ (k + 1) = 2 ^ k * 2 := by ring
      have h2 := Nat.div_add_mod (d % (2 ^ k * 2)) (2 ^ k)
      rw [Nat.mod_mul_right_div_self] at h2
      rw [Nat.mod_mod_of_dvd _ ⟨2, rfl⟩] at h2
      rw [h1]
      omega
    rw [hbit, hdec]
    ring

lemma foldl_bitsOf (D : Nat) :
    ∀ (dp : List Nat) (n : Nat), (∀ d ∈ dp, d < 2 ^ D) →
      List.foldl (fun a b => 2 * a + b) n (bitsOf D dp) =
        n * 2 ^ (D * dp.length) + valD D dp
  | [], n, _ => by simp [bitsOf, valD]
  | d :: dp, n, h => by
    have hsplit : bitsOf D (d :: dp) = bitsOf D dp ++ digitBits D d := by
      simp [bitsOf, List.flatMap_append]
    rw [hsplit, List.foldl_append,
      foldl_bitsOf D dp n (fun x hx => h x (List.mem_cons_of_mem _ hx)),
      foldl_digitBits]
    have hd : d % 2 ^ D = d := Nat.mod_eq_of_lt (h d (List.mem_cons_self _ _))
    have hv : valD D (d :: dp) = valD D dp * 2 ^ D + d := rfl
    have hl : (d :: dp).length = dp.length + 1 := rfl
    have hp : (2 : Nat) ^ (D * (dp.length + 1)) = 2 ^ (D * dp.length) * 2 ^ D := by
      rw [← pow_add]
      congr 1
    rw [hd, hv, hl, hp]
    ring

/-! ## The digit loop extracts exactly the bit sequence -/

lemma scanLoop_eq (D w P : Nat) (M : Nat → Nat) (dp : List Nat) (hD : 1 ≤ D) :
    ∀ (fuel r m buf : Nat) (s : ScanState), 1 ≤ m → m ≤ D → r ≤ dp.length →
      m - 1 + D * r + 1 ≤ fuel →
      scanLoop D w P M dp fuel r m buf s =
        some ((digitBits (m - 1) (buf >>> (D - (m - 1))) ++
          (dp.take r).reverse.flatMap (digitBits D)).foldl (stepBit w P M) s)
  | 0, r, m, buf, s => by
    intro hm1 hmD hr hfuel
    omega
  | fuel + 1, r, m, buf, s => by
    intro hm1 hmD hr hfuel
    simp only [scanLoop]
    by_cases hm : m = 1
    · subst hm
      rw [if_pos rfl]
      by_cases hr0 : r = 0
      · subst hr0
        simp [digitBits]
      · rw [if_neg hr0]
        obtain ⟨r', rfl⟩ : ∃ r', r = r' + 1 := ⟨r - 1, by omega⟩
        obtain ⟨D', rfl⟩ : ∃ Dm, D = Dm + 1 := ⟨D - 1, by omega⟩
        have hlt : r' < dp.length := by omega
        have hgd : dp.getD r' 0 = dp[r'] := by
          rw [List.getD_eq_getElem?_getD, List.getElem?_eq_getElem hlt]
          rfl
        have htake : dp.take (r' + 1) = dp.take r' ++ [dp.getD r' 0] := by
          rw [List.take_succ, List.getElem?_eq_getElem hlt, hgd]
          rfl
        simp only [Nat.add_sub_cancel]
        rw [scanLoop_eq (D' + 1) w P M dp hD fuel r' (D' + 1)
          (dp.getD r' 0 <<< 1)
          (stepBit w P M s ((dp.getD r' 0 >>> D') &&& 1))
          (by omega) (le_refl _) (by omega)
          (by
            have hx : (D' + 1) * (r' + 1) = (D' + 1) * r' + (D' + 1) := by ring
            omega)]
        congr 1
        have hshift : (dp.getD r' 0 <<< 1) >>> (D' + 1 - D') =
            dp.getD r' 0 := by
          have e0 : D' + 1 - D' = 1 := by omega
          rw [e0, Nat.shiftLeft_eq, Nat.shiftRight_eq_div_pow, pow_one]
          exact Nat.mul_div_cancel _ (by norm_num)
        simp only [Nat.add_sub_cancel, htake, List.reverse_append,
          List.reverse_cons, List.reverse_nil, List.nil_append,
          List.flatMap_cons, List.flatMap_nil, List.append_nil, hshift]
        simp only [digitBits, List.flatMap_cons, List.nil_append,
          List.cons_append, List.foldl_cons]
    · rw [if_neg hm]
      obtain ⟨m2, rfl⟩ : ∃ m2, m = m2 + 2 := ⟨m - 2, by omega⟩
      rw [scanLoop_eq D w P M dp hD fuel r (m2 + 2 - 1) (buf <<< 1)
        (stepBit w P M s ((buf >>> (D - 1)) &&& 1))
        (by omega) (by omega) hr (by omega)]
      congr 1
      have e1 : D - m2 = (D - (m2 + 1)) + 1 := by omega
      have htail : (buf <<< 1) >>> (D - m2) = buf >>> (D - (m2 + 1)) := by
        rw [e1, Nat.shiftLeft_eq, Nat.shiftRight_eq_div_pow,
          Nat.shiftRight_eq_div_pow, pow_one, pow_succ', Nat.mul_comm buf 2]
        exact Nat.mul_div_mul_left _ _ (by norm_num)
      have e2 : D - (m2 + 1) + m2 = D - 1 := by omega
      have hhead : ((buf >>> (D - (m2 + 1))) >>> m2) &&& 1 =
          (buf >>> (D - 1)) &&& 1 := by
        rw [← Nat.shiftRight_add, e2]
      show (digitBits m2 ((buf <<< 1) >>> (D - m2)) ++
          (dp.take r).reverse.flatMap (digitBits D)).foldl (stepBit w P M)
            (stepBit w P M s ((buf >>> (D - 1)) &&& 1)) =
        (digitBits (m2 + 1) (buf >>> (D - (m2 + 1))) ++
          (dp.take r).reverse.flatMap (digitBits D)).foldl (stepBit w P M) s
      rw [htail]
      simp only [digitBits, List.cons_append, List.foldl_cons, hhead]

lemma inv_foldl (w P G : Nat) (M : Nat → Nat)
    (HM : ∀ k, 2 ^ (w - 1) ≤ k → k < 2 ^ w → M k = G ^ k % P) (hw : 2 ≤ w) :
    ∀ (bs : List Nat) (n : Nat) (s : ScanState), (∀ b ∈ bs, b ≤ 1) → Inv w P G n s →
      Inv w P G (bs.foldl (fun a b => 2 * a + b) n) (bs.foldl (stepBit w P M) s)
  | [], _, _, _, h => h
  | b :: bs, n, s, hb, h => by
    simp only [List.foldl_cons]
    exact inv_foldl w P G M HM hw bs _ _
      (fun x hx => hb x (List.mem_cons_of_mem _ hx))
      (inv_step w P G M HM hw n b (hb b (List.mem_cons_self _ _)) s h)

/-! ## Engine correctness -/

lemma engineScan_eq (D G P : Nat) (dp : List Nat) (hD : 1 ≤ D) :
    engineScan D G dp P =
      some ((bitsOf D dp).foldl
        (stepBit (winsize (mp_count_bits D dp)) P
          (mEntry (winsize (mp_count_bits D dp)) G P)) ⟨0, 0, 0, 1, []⟩) := by
  unfold engineScan
  rw [scanLoop_eq D (winsize (mp_count_bits D dp)) P
    (mEntry (winsize (mp_count_bits D dp)) G P) dp hD
    (D * dp.length + 1) dp.length 1 0 ⟨0, 0, 0, 1, []⟩ (le_refl 1) hD
    (le_refl _) (by omega)]
  congr 1
  simp [digitBits, bitsOf, List.take_length]

lemma f_mp_exptmod_correct (D G P : Nat) (dp : List Nat) (hD : 1 ≤ D)
    (hdp : ∀ d ∈ dp, d < 2 ^ D) (hex : ¬(P = 1 ∧ valD D dp = 0)) :
    f_mp_exptmod D G dp P = some (G ^ valD D dp % P) := by
  have hw : 2 ≤ winsize (mp_count_bits D dp) := two_le_winsize _
  set w := winsize (mp_count_bits D dp) with hwdef
  have HM : ∀ k, 2 ^ (w - 1) ≤ k → k < 2 ^ w → mEntry w G P k = G ^ k % P :=
    fun k h1 h2 => mEntry_upper w G P k hw h1 h2
  have hinv0 : Inv w P G 0 ⟨0, 0, 0, 1, []⟩ :=
    ⟨by simp, Or.inl ⟨rfl, rfl, rfl, rfl, rfl⟩⟩
  have hinv := inv_foldl w P G (mEntry w G P) HM hw (bitsOf D dp) 0
    ⟨0, 0, 0, 1, []⟩ (bitsOf_le_one D dp) hinv0
  have hval : (bitsOf D dp).foldl (fun a b => 2 * a + b) 0 = valD D dp := by
    have h := foldl_bitsOf D dp 0 hdp
    simpa using h
  rw [hval] at hinv
  unfold f_mp_exptmod
  rw [engineScan_eq D G P dp hD, Option.map_some']
  congr 1
  set sfin := (bitsOf D dp).foldl (stepBit w P (mEntry w G P)) ⟨0, 0, 0, 1, []⟩
    with hsfin
  obtain ⟨hlog, hcase⟩ := hinv
  rcases hcase with ⟨h0, hc, hb, hr, hn⟩ | ⟨h1, hc, hb, hn, hr⟩ |
    ⟨h2, hc1, hc2, m, v, hnv, hv1, hv2, hbb, hres⟩
  · -- the exponent was zero: the accumulator 1 is returned as is
    have hP : P ≠ 1 := fun hp => hex ⟨hp, hn⟩
    have h1P : 1 % P = 1 := by
      rcases P with _ | P1
      · rfl
      · rcases P1 with _ | P2
        · omega
        · exact Nat.mod_eq_of_lt (by omega)
    unfold flushPhase
    rw [if_neg (by simp [h0])]
    rw [hr, hn, pow_zero, h1P]
  · unfold flushPhase
    rw [if_neg (by simp [h1])]
    exact hr
  · unfold flushPhase
    rw [if_pos ⟨h2, by omega⟩, mEntry_one]
    have hc2' : sfin.bitcpy ≤ w := by omega
    have hdisj : sfin.res = G ^ m % P ∨
        (m = 0 ∧ sfin.res = 1 ∧ 1 ≤ sfin.bitcpy) := by
      rcases hres with ⟨hm0, hr1⟩ | ⟨hm1, hr1⟩
      · exact Or.inr ⟨hm0, hr1, hc1⟩
      · exact Or.inl hr1
    rw [flushLoopC_val P G w sfin.bitcpy m sfin.res sfin.bitbuf hc2' hdisj, hbb]
    have hdiv : v * 2 ^ (w - sfin.bitcpy) / 2 ^ (w - sfin.bitcpy) = v :=
      Nat.mul_div_cancel _ (Nat.two_pow_pos _)
    rw [hdiv, Nat.mod_eq_of_lt hv2, ← hnv]

/-! ## The zero exponent -/

lemma valD_zero (D : Nat) : ∀ dp, valD D dp = 0 → ∀ d ∈ dp, d = 0
  | [], _, d, hd => by simp at hd
  | d0 :: dp, h, d, hd => by
    have hv : valD D dp * 2 ^ D + d0 = 0 := h
    have h2 : 0 < 2 ^ D := Nat.two_pow_pos D
    have hd0 : d0 = 0 := by omega
    have hdp : valD D dp = 0 := by
      have h3 : valD D dp * 2 ^ D = 0 := by omega
      rcases Nat.mul_eq_zero.mp h3 with h4 | h4
      · exact h4
      · omega
    rcases List.mem_cons.mp hd with rfl | hd
    · exact hd0
    · exact valD_zero D dp hdp d hd

lemma digitBits_zero : ∀ k, ∀ b ∈ digitBits k 0, b = 0
  | 0 => by simp [digitBits]
  | k + 1 => by
    intro b hb
    rcases List.mem_cons.mp hb with rfl | hb
    · simp
    · exact digitBits_zero k b hb

lemma foldl_zero_bits (w P : Nat) (M : Nat → Nat) :
    ∀ (bs : List Nat), (∀ b ∈ bs, b = 0) →
      bs.foldl (stepBit w P M) ⟨0, 0, 0, 1, []⟩ = ⟨0, 0, 0, 1, []⟩
  | [], _ => rfl
  | b :: bs, h => by
    have hb0 : b = 0 := h b (List.mem_cons_self _ _)
    subst hb0
    simp only [List.foldl_cons]
    rw [stepBit_of_skip w P M _ rfl]
    exact foldl_zero_bits w P M bs (fun x hx => h x (List.mem_cons_of_mem _ hx))

lemma f_mp_exptmod_zero (D G P : Nat) (dp : List Nat) (hD : 1 ≤ D)
    (hz : valD D dp = 0) : f_mp_exptmod D G dp P = some 1 := by
  have hbits : ∀ b ∈ bitsOf D dp, b = 0 := by
    intro b hb
    rcases List.mem_flatMap.mp hb with ⟨d, hd, hbd⟩
    have hd0 : d = 0 := valD_zero D dp hz d (List.mem_reverse.mp hd)
    exact digitBits_zero D b (hd0 ▸ hbd)
  unfold f_mp_exptmod
  rw [engineScan_eq D G P dp hD, Option.map_some']
  congr 1
  rw [foldl_zero_bits _ _ _ _ hbits]
  rfl

/-! ## Preservation in the instrumented engine: `Y` is written only by
the final exchange, and no kernel write targets `G`, `X` or `P` -/

lemma goodCell_res : goodCell Cell.res :=
  ⟨fun h => Cell.noConfusion h, fun h => Cell.noConfusion h,
    fun h => Cell.noConfusion h⟩

lemma goodCell_mu : goodCell Cell.mu :=
  ⟨fun h => Cell.noConfusion h, fun h => Cell.noConfusion h,
    fun h => Cell.noConfusion h⟩

lemma goodCell_slot (i : Nat) : goodCell (Cell.slot i) :=
  ⟨fun h => Cell.noConfusion h, fun h => Cell.noConfusion h,
    fun h => Cell.noConfusion h⟩

lemma goodCell_yv : goodCell Cell.yv :=
  ⟨fun h => Cell.noConfusion h, fun h => Cell.noConfusion h,
    fun h => Cell.noConfusion h⟩

lemma presO_eseq (y0 : Nat) (x : Except EErr EState)
    (g : EState → Except EErr EState) (hx : presO y0 x)
    (hg : ∀ st, okSt y0 st → presO y0 (g st)) : presO y0 (eseq x g) := by
  cases x with
  | error e => exact hx
  | ok st => exact hg st hx

lemma presO_kop (y0 : Nat) (oracle : Nat → Nat) (lab : Label) (dest : List Cell)
    (f : EState → EState) (st : EState) (h : okSt y0 st)
    (hfy : ∀ s, (f s).y = s.y) (hfw : ∀ s, (f s).writes = s.writes)
    (hd : ∀ c ∈ dest, goodCell c) : presO y0 (kop oracle lab dest f st) := by
  unfold kop
  by_cases hk : oracle st.k = 0
  · rw [if_pos hk]
    refine ⟨?_, ?_⟩
    · show (f { st with k := st.k + 1 }).y = y0
      rw [hfy]
      exact h.1
    · show ∀ c ∈ (f { st with k := st.k + 1 }).writes ++ dest, goodCell c
      rw [hfw]
      intro c hc
      rcases List.mem_append.mp hc with hc | hc
      · exact h.2 c hc
      · exact hd c hc
  · rw [if_neg hk]
    exact h

lemma presO_kinit (y0 : Nat) (oracle : Nat → Nat) (lab : Label) (c0 : Cell)
    (f : EState → EState) (st : EState) (h : okSt y0 st)
    (hfy : ∀ s, (f s).y = s.y) (hfw : ∀ s, (f s).writes = s.writes)
    (hc0 : goodCell c0) : presO y0 (kinit oracle lab c0 f st) := by
  unfold kinit
  by_cases hk : oracle st.k = 0
  · rw [if_pos hk]
    refine ⟨?_, ?_⟩
    · show (f { st with k := st.k + 1 }).y = y0
      rw [hfy]
      exact h.1
    · show ∀ c ∈ (f { st with k := st.k + 1 }).writes ++ [c0], goodCell c
      rw [hfw]
      intro c hc
      rcases List.mem_append.mp hc with hc | hc
      · exact h.2 c hc
      · rw [List.mem_singleton.mp hc]
        exact hc0
  · rw [if_neg hk]
    exact h

lemma presO_initLoop (y0 : Nat) (oracle : Nat → Nat) :
    ∀ cnt x st, okSt y0 st → presO y0 (initLoop oracle cnt x st)
  | 0, _, _, h => h
  | cnt + 1, x, st, h => by
    unfold initLoop
    by_cases hk : oracle st.k = 0
    · rw [if_pos hk]
      refine presO_initLoop y0 oracle cnt (x + 1) _ ⟨h.1, ?_⟩
      intro c hc
      rcases List.mem_append.mp hc with hc | hc
      · exact h.2 c hc
      · rw [List.mem_singleton.mp hc]
        exact goodCell_slot x
    · rw [if_neg hk]
      exact h

lemma presO_midLoop (y0 : Nat) (oracle : Nat → Nat) (P mid : Nat) :
    ∀ n st, okSt y0 st → presO y0 (midLoop oracle P mid n st)
  | 0, _, h => h
  | n + 1, st, h => by
    unfold midLoop
    refine presO_eseq y0 _ _
      (presO_kop y0 oracle _ _ _ st h (fun _ => rfl) (fun _ => rfl)
        (by intro c hc; rw [List.mem_singleton.mp hc]; exact goodCell_slot mid))
      (fun st2 h2 => presO_eseq y0 _ _
        (presO_kop y0 oracle _ _ _ st2 h2 (fun _ => rfl) (fun _ => rfl)
          (by intro c hc; rw [List.mem_singleton.mp hc]; exact goodCell_slot mid))
        (fun st3 h3 => presO_midLoop y0 oracle P mid n st3 h3))

lemma presO_upLoopE (y0 : Nat) (oracle : Nat → Nat) (P : Nat) :
    ∀ n x st, okSt y0 st → presO y0 (upLoopE oracle P n x st)
  | 0, _, _, h => h
  | n + 1, x, st, h => by
    unfold upLoopE
    refine presO_eseq y0 _ _
      (presO_kop y0 oracle _ _ _ st h (fun _ => rfl) (fun _ => rfl)
        (by intro c hc; rw [List.mem_singleton.mp hc]; exact goodCell_slot x))
      (fun st2 h2 => presO_eseq y0 _ _
        (presO_kop y0 oracle _ _ _ st2 h2 (fun _ => rfl) (fun _ => rfl)
          (by intro c hc; rw [List.mem_singleton.mp hc]; exact goodCell_slot x))
        (fun st3 h3 => presO_upLoopE y0 oracle P n (x + 1) st3 h3))

lemma presO_resSqrRed (y0 : Nat) (oracle : Nat → Nat) (P : Nat) (lab : Label)
    (st : EState) (h : okSt y0 st) : presO y0 (resSqrRed oracle P lab st) := by
  unfold resSqrRed
  refine presO_eseq y0 _ _
    (presO_kop y0 oracle _ _ _ st h (fun _ => rfl) (fun _ => rfl)
      (by intro c hc; rw [List.mem_singleton.mp hc]; exact goodCell_res))
    (fun st2 h2 =>
      presO_kop y0 oracle _ _ _ st2 h2 (fun _ => rfl) (fun _ => rfl)
        (by intro c hc; rw [List.mem_singleton.mp hc]; exact goodCell_res))

lemma presO_winSqrs (y0 : Nat) (oracle : Nat → Nat) (P : Nat) :
    ∀ n st, okSt y0 st → presO y0 (winSqrs oracle P n st)
  | 0, _, h => h
  | n + 1, st, h => by
    unfold winSqrs
    exact presO_eseq y0 _ _ (presO_resSqrRed y0 oracle P _ st h)
      (fun st2 h2 => presO_winSqrs y0 oracle P n st2 h2)

lemma presO2_map (y0 : Nat) (x : Except EErr EState) (ms2 : ScanMS)
    (hx : presO y0 x) : presO2 y0 (x.map (fun st => (ms2, st))) := by
  cases x with
  | error e =>
    obtain ⟨e1, e2, e3⟩ := e
    exact hx
  | ok st => exact hx

lemma presO2_eseq2 (y0 : Nat) (x : Except EErr (ScanMS × EState))
    (g : ScanMS × EState → Except EErr (ScanMS × EState)) (hx : presO2 y0 x)
    (hg : ∀ p, okSt y0 p.2 → presO2 y0 (g p)) : presO2 y0 (eseq2 x g) := by
  cases x with
  | error e =>
    obtain ⟨e1, e2, e3⟩ := e
    exact hx
  | ok p => exact hg p hx

lemma presF_eseqMS (y0 : Nat) (x : Except EErr (ScanMS × EState))
    (g : ScanMS × EState → Except EErr EState) (hx : presO2 y0 x)
    (hg : ∀ p, okSt y0 p.2 → presF y0 (g p)) : presF y0 (eseqMS x g) := by
  cases x with
  | error e =>
    obtain ⟨e1, e2, e3⟩ := e
    exact ⟨hx.1, hx.2⟩
  | ok p => exact hg p hx

lemma presO_stepBitE (y0 : Nat) (oracle : Nat → Nat) (w P : Nat) (ms : ScanMS)
    (y : Nat) (st : EState) (h : okSt y0 st) :
    presO2 y0 (stepBitE oracle w P ms y st) := by
  unfold stepBitE
  by_cases h1 : ms.mode = 0 ∧ y = 0
  · rw [if_pos h1]
    exact h
  · rw [if_neg h1]
    by_cases h2 : ms.mode = 1 ∧ y = 0
    · rw [if_pos h2]
      exact presO2_map y0 _ ms (presO_resSqrRed y0 oracle P .lRES st h)
    · rw [if_neg h2]
      by_cases h3 : ms.bitcpy + 1 = w
      · rw [if_pos h3]
        refine presO2_map y0 _ _ ?_
        refine presO_eseq y0 _ _ (presO_eseq y0 _ _
          (presO_winSqrs y0 oracle P w st h) (fun st2 h2' =>
            presO_kop y0 oracle _ _ _ st2 h2' (fun _ => rfl) (fun _ => rfl)
              (by intro c hc; rw [List.mem_singleton.mp hc]; exact goodCell_res)))
          (fun st3 h3' =>
            presO_kop y0 oracle _ _ _ st3 h3' (fun _ => rfl) (fun _ => rfl)
              (by intro c hc; rw [List.mem_singleton.mp hc]; exact goodCell_res))
      · rw [if_neg h3]
        exact h

lemma presO_scanLoopE (y0 : Nat) (oracle : Nat → Nat) (D w P : Nat)
    (dp : List Nat) :
    ∀ fuel r bitcnt buf ms st, okSt y0 st →
      presO2 y0 (scanLoopE oracle D w P dp fuel r bitcnt buf ms st)
  | 0, _, _, _, _, _, h => h
  | fuel + 1, r, bitcnt, buf, ms, st, h => by
    unfold scanLoopE
    by_cases hb : bitcnt = 1
    · rw [if_pos hb]
      by_cases hr : r = 0
      · rw [if_pos hr]
        exact h
      · rw [if_neg hr]
        refine presO2_eseq2 y0 _ _
          (presO_stepBitE y0 oracle w P ms _ st h)
          (fun p hp => presO_scanLoopE y0 oracle D w P dp fuel (r - 1) D
            (dp.getD (r - 1) 0 <<< 1) p.1 p.2 hp)
    · rw [if_neg hb]
      refine presO2_eseq2 y0 _ _
        (presO_stepBitE y0 oracle w P ms _ st h)
        (fun p hp => presO_scanLoopE y0 oracle D w P dp fuel r (bitcnt - 1)
          (buf <<< 1) p.1 p.2 hp)

lemma presO_flushE (y0 : Nat) (oracle : Nat → Nat) (w P : Nat) :
    ∀ c bb st, okSt y0 st → presO y0 (flushE oracle w P c bb st)
  | 0, _, _, h => h
  | c + 1, bb, st, h => by
    unfold flushE
    refine presO_eseq y0 _ _ (presO_resSqrRed y0 oracle P _ st h)
      (fun st2 h2 => ?_)
    by_cases hbit : (bb <<< 1) &&& (1 <<< w) ≠ 0
    · rw [if_pos hbit]
      refine presO_eseq y0 _ _
        (presO_kop y0 oracle _ _ _ st2 h2 (fun _ => rfl) (fun _ => rfl)
          (by intro c hc; rw [List.mem_singleton.mp hc]; exact goodCell_res))
        (fun st3 h3 => presO_eseq y0 _ _
          (presO_kop y0 oracle _ _ _ st3 h3 (fun _ => rfl) (fun _ => rfl)
            (by intro c hc; rw [List.mem_singleton.mp hc]; exact goodCell_res))
          (fun st4 h4 => presO_flushE y0 oracle w P c (bb <<< 1) st4 h4))
    · rw [if_neg hbit]
      exact presO_flushE y0 oracle w P c (bb <<< 1) st2 h2

lemma presF_eseq (y0 : Nat) (x : Except EErr EState)
    (g : EState → Except EErr EState) (hx : presO y0 x)
    (hg : ∀ st, okSt y0 st → presF y0 (g st)) : presF y0 (eseq x g) := by
  cases x with
  | error e =>
    obtain ⟨e1, e2, e3⟩ := e
    exact ⟨hx.1, hx.2⟩
  | ok st => exact hg st hx

lemma presF_runBody (oracle : Nat → Nat) (D G : Nat) (xdp : List Nat)
    (P y0 : Nat) : presF y0 (runBody oracle D G xdp P y0) := by
  have h0 : okSt y0 ⟨0, y0, 0, 0, fun _ => 0, [], []⟩ := ⟨rfl, by simp⟩
  have hgmu : ∀ c ∈ [Cell.mu], goodCell c := by
    intro c hc
    rw [List.mem_singleton.mp hc]
    exact goodCell_mu
  have hgslot : ∀ i, ∀ c ∈ [Cell.slot i], goodCell c := by
    intro i c hc
    rw [List.mem_singleton.mp hc]
    exact goodCell_slot i
  unfold runBody
  refine presF_eseq y0 _ _ (presO_initLoop y0 oracle _ 0 _ h0) (fun st h => ?_)
  refine presF_eseq y0 _ _
    (presO_kinit y0 oracle _ _ _ st h (fun _ => rfl) (fun _ => rfl) goodCell_mu)
    (fun st h => ?_)
  refine presF_eseq y0 _ _
    (presO_kop y0 oracle _ _ _ st h (fun _ => rfl) (fun _ => rfl) hgmu)
    (fun st h => ?_)
  refine presF_eseq y0 _ _
    (presO_kop y0 oracle _ _ _ st h (fun _ => rfl) (fun _ => rfl) (hgslot 1))
    (fun st h => ?_)
  refine presF_eseq y0 _ _
    (presO_kop y0 oracle _ _ _ st h (fun _ => rfl) (fun _ => rfl) (hgslot _))
    (fun st h => ?_)
  refine presF_eseq y0 _ _ (presO_midLoop y0 oracle P _ _ st h) (fun st h => ?_)
  refine presF_eseq y0 _ _ (presO_upLoopE y0 oracle P _ _ st h) (fun st h => ?_)
  refine presF_eseq y0 _ _
    (presO_kinit y0 oracle _ _ _ st h (fun _ => rfl) (fun _ => rfl) goodCell_res)
    (fun st h => ?_)
  have hset : okSt y0 (wset [Cell.res] (fun s => { s with resv := 1 }) st) := by
    refine ⟨h.1, ?_⟩
    intro c hc
    rcases List.mem_append.mp hc with hc | hc
    · exact h.2 c hc
    · rw [List.mem_singleton.mp hc]
      exact goodCell_res
  refine presF_eseqMS y0 _ _
    (presO_scanLoopE y0 oracle D (winsize (mp_count_bits D xdp)) P xdp
      (D * xdp.length + 1) xdp.length 1 0 ⟨0, 0, 0⟩ _ hset)
    (fun p hp => ?_)
  have hflush : presO y0 (if p.1.mode = 2 ∧ 0 < p.1.bitcpy
      then flushE oracle (winsize (mp_count_bits D xdp)) P p.1.bitcpy
        p.1.bitbuf p.2
      else .ok p.2) := by
    by_cases hfb : p.1.mode = 2 ∧ 0 < p.1.bitcpy
    · rw [if_pos hfb]
      exact presO_flushE y0 oracle _ P p.1.bitcpy p.1.bitbuf p.2 hp
    · rw [if_neg hfb]
      exact hp
  refine presF_eseq y0 _ _ hflush (fun st h => ?_)
  show ∀ c ∈ (wset [Cell.res, Cell.yv]
      (fun s => { s with resv := s.y, y := s.resv }) st).writes, goodCell c
  intro c hc
  rcases List.mem_append.mp hc with hc | hc
  · exact h.2 c hc
  · rcases List.mem_cons.mp hc with rfl | hc
    · exact goodCell_res
    · rw [List.mem_singleton.mp hc]
      exact goodCell_yv

lemma dispatch_cond_iff (D cutoff dr : Nat) (Pdp : List Nat) :
    (((mp_isodd D Pdp = true ∧ Pdp.length < cutoff) ∨ dr = 1) ∧
        4 < Pdp.length) ↔ dispatchSpecCond D cutoff dr Pdp := by
  unfold mp_isodd dispatchSpecCond
  simp [decide_eq_true_eq]

/-! ## Claims -/

/-- C1 (amended): for every non-negative `G` and `X` (given by its
digit vector) and every `P > 0` except the single case `P = 1 ∧ X = 0`,
the generic windowed engine returns `G^X mod P`; in particular
`4^13 mod 497 = 445`, `2^10 mod 1000 = 24` and `0^5 mod 11 = 0`. -/
theorem c1_windowed_engine_correct :
    (∀ (D G P : Nat) (dp : List Nat), 1 ≤ D → (∀ d ∈ dp, d < 2 ^ D) →
      0 < P → ¬(P = 1 ∧ valD D dp = 0) →
      f_mp_exptmod D G dp P = some (G ^ valD D dp % P)) ∧
    f_mp_exptmod 28 4 [13] 497 = some 445 ∧
    f_mp_exptmod 28 2 [10] 1000 = some 24 ∧
    f_mp_exptmod 28 0 [5] 11 = some 0 := by
  refine ⟨fun D G P dp hD hdp _ hex =>
    f_mp_exptmod_correct D G P dp hD hdp hex, ?_, ?_, ?_⟩ <;> decide

/-- C1 witness: the general statement applied at `G = 4`, `X = 13`,
`P = 497`. -/
theorem c1_witness :
    f_mp_exptmod 28 4 [13] 497 = some (4 ^ valD 28 [13] % 497) :=
  c1_windowed_engine_correct.1 28 4 497 [13] (by decide) (by decide)
    (by decide) (by decide)

/-- C1 counterexample: at `G = 5`, `X = 0`, `P = 1` the engine returns
`1`, not `5^0 mod 1 = 0`, so the claim fails as stated for `P = 1`. -/
theorem c1_counterexample : f_mp_exptmod 28 5 [] 1 ≠ some (5 ^ 0 % 1) := by
  decide

/-- C2 (code bug): inject a kernel failure (status 2) at call 17, the
filled-window multiply `mp_mul(&res, &M[bitbuf], &res)` of line 179,
on the run `G = 4`, `X = 13`, `P = 497`. The failure kind propagates,
`mu` and all four table slots are released, but the accumulator `res`,
although initialised, is never released: the `goto __MU` at lines
180/183 skips the `__RES: mp_clear(&res)` label. -/
theorem c2_res_leak_on_window_multiply_failure :
    (runE (fun k => if k = 17 then 2 else 0) 28 4 [13] 497 0).err = 2 ∧
    Cell.res ∈ (runE (fun k => if k = 17 then 2 else 0) 28 4 [13] 497 0).inits ∧
    Cell.res ∉ (runE (fun k => if k = 17 then 2 else 0) 28 4 [13] 497 0).clears ∧
    Cell.mu ∈ (runE (fun k => if k = 17 then 2 else 0) 28 4 [13] 497 0).clears ∧
    ∀ i < 4, Cell.slot i ∈
      (runE (fun k => if k = 17 then 2 else 0) 28 4 [13] 497 0).clears := by
  decide

/-- C3 (amended): with exponent `X = 0` the engine returns `1` for
every modulus, also for `P = 1` (where `1 mod P = 0`): the accumulator
initialised to 1 is exchanged into `Y` without ever being reduced. -/
theorem c3_zero_exponent :
    ∀ (D G P : Nat) (dp : List Nat), 1 ≤ D → valD D dp = 0 →
      f_mp_exptmod D G dp P = some 1 :=
  fun D G P dp hD hz => f_mp_exptmod_zero D G P dp hD hz

/-- C3 witness: `G = 5`, `X = 0`, `P = 7` gives `1`. -/
theorem c3_witness : f_mp_exptmod 28 5 [] 7 = some 1 :=
  c3_zero_exponent 28 5 7 [] (by decide) (by decide)

/-- C3 counterexample: at `P = 1`, `X = 0` the claim predicts `0`; the
engine returns `1`. -/
theorem c3_counterexample : f_mp_exptmod 28 5 [] 1 ≠ some 0 := by decide

/-- C4: after a successful build with window size `w`,
`M[1] = G mod P`, `M[2^(w-1)] = G^(2^(w-1)) mod P`, and every upper
slot `k` from `2^(w-1)+1` to `2^w - 1` holds `G^k mod P`. -/
theorem c4_table_integrity :
    ∀ w G P : Nat, 2 ≤ w →
      mEntry w G P 1 = G % P ∧
      mEntry w G P (2 ^ (w - 1)) = G ^ 2 ^ (w - 1) % P ∧
      ∀ k, 2 ^ (w - 1) + 1 ≤ k → k ≤ 2 ^ w - 1 → mEntry w G P k = G ^ k % P := by
  intro w G P hw
  have hlt : (2 : Nat) ^ (w - 1) < 2 ^ w :=
    Nat.pow_lt_pow_right (by norm_num) (by omega)
  have hpos : 0 < 2 ^ w := Nat.two_pow_pos w
  refine ⟨mEntry_one w G P, mEntry_upper w G P _ hw (le_refl _) hlt,
    fun k h1 h2 => mEntry_upper w G P k hw (by omega) (by omega)⟩

/-- C4 witness: `w = 3`, `G = 2`, `P = 5`, top slot `k = 7`. -/
theorem c4_witness :
    2 ^ (3 - 1) + 1 ≤ 7 ∧ 7 ≤ 2 ^ 3 - 1 ∧ mEntry 3 2 5 7 = 2 ^ 7 % 5 :=
  ⟨by decide, by decide,
    (c4_table_integrity 3 2 5 (by decide)).2.2 7 (by decide) (by decide)⟩

/-- C5: every full-window table read `M[bitbuf]` recorded during the
scan has its index in the populated upper half
`2^(w-1) .. 2^w - 1`, so the unpopulated lower slots are never read. -/
theorem c5_table_access_invariant :
    ∀ (D G P : Nat) (dp : List Nat) (s : ScanState), 1 ≤ D →
      engineScan D G dp P = some s →
      ∀ i ∈ s.log, 2 ^ (winsize (mp_count_bits D dp) - 1) ≤ i ∧
        i ≤ 2 ^ winsize (mp_count_bits D dp) - 1 := by
  intro D G P dp s hD hs i hi
  have hw : 2 ≤ winsize (mp_count_bits D dp) := two_le_winsize _
  set w := winsize (mp_count_bits D dp)
  have HM : ∀ k, 2 ^ (w - 1) ≤ k → k < 2 ^ w → mEntry w G P k = G ^ k % P :=
    fun k h1 h2 => mEntry_upper w G P k hw h1 h2
  have hinv := inv_foldl w P G (mEntry w G P) HM hw (bitsOf D dp) 0
    ⟨0, 0, 0, 1, []⟩ (bitsOf_le_one D dp)
    ⟨by simp, Or.inl ⟨rfl, rfl, rfl, rfl, rfl⟩⟩
  rw [engineScan_eq D G P dp hD] at hs
  obtain rfl := Option.some.inj hs
  have hb := (hinv.1 i hi)
  refine ⟨hb.1, ?_⟩
  have hb2 := hb.2
  omega

/-- C5 witness: on `G = 4`, `X = 13`, `P = 497` the scan performs the
single full-window lookup `M[3]`, and `3` lies in the upper half for
`w = 2`. -/
theorem c5_witness :
    2 ^ (winsize (mp_count_bits 28 [13]) - 1) ≤ 3 ∧
    3 ≤ 2 ^ winsize (mp_count_bits 28 [13]) - 1 :=
  c5_table_access_invariant 28 4 497 [13] ⟨2, 2, 1, 120, [3]⟩ (by decide)
    (by decide) 3 (by decide)

/-- C6: the chosen window size equals the specification's step function
of the exponent's bit length, and it is monotone in that length. -/
theorem c6_window_size :
    (∀ b, winsize b = winsizeSpec b) ∧
    ∀ a b : Nat, a ≤ b → winsize a ≤ winsize b :=
  ⟨fun _ => rfl, fun _ _ h => winsize_mono h⟩

/-- C6 witness: at the first threshold boundary. -/
theorem c6_witness : winsize 7 = winsizeSpec 7 ∧ winsize 7 ≤ winsize 8 :=
  ⟨c6_window_size.1 7, c6_window_size.2 7 8 (by decide)⟩

/-- C7: the dispatcher delegates to the fast-path engine exactly when
`P` is odd and its digit count is below the cutoff, or `P` is of the
Diminished-Radix form, and additionally `P`'s digit count exceeds 4;
otherwise it delegates to the generic windowed engine — in each case
returning that engine's result. -/
theorem c7_dispatcher :
    ∀ (D cutoff dr : Nat) (fast : Option Nat) (G : Nat) (Xdp Pdp : List Nat),
      (dispatchSpecCond D cutoff dr Pdp →
        mp_exptmod D cutoff dr fast G Xdp Pdp = fast) ∧
      (¬dispatchSpecCond D cutoff dr Pdp →
        mp_exptmod D cutoff dr fast G Xdp Pdp =
          f_mp_exptmod D G Xdp (valD D Pdp)) := by
  intro D cutoff dr fast G Xdp Pdp
  constructor
  · intro hc
    unfold mp_exptmod
    rw [if_pos ((dispatch_cond_iff D cutoff dr Pdp).mpr hc)]
  · intro hn
    unfold mp_exptmod
    rw [if_neg (fun hx => hn ((dispatch_cond_iff D cutoff dr Pdp).mp hx))]

/-- C7 witness: a Diminished-Radix modulus of 5 digits takes the fast
path; an even non-DR modulus of 5 digits takes the generic engine. -/
theorem c7_witness :
    mp_exptmod 28 9 1 (some 42) 3 [7] [1, 0, 0, 0, 1] = some 42 ∧
    mp_exptmod 28 9 0 (some 42) 3 [7] [2, 0, 0, 0, 1] =
      f_mp_exptmod 28 3 [7] (valD 28 [2, 0, 0, 0, 1]) :=
  ⟨(c7_dispatcher 28 9 1 (some 42) 3 [7] [1, 0, 0, 0, 1]).1
      (by unfold dispatchSpecCond; decide),
   (c7_dispatcher 28 9 0 (some 42) 3 [7] [2, 0, 0, 0, 1]).2
      (by unfold dispatchSpecCond; decide)⟩

/-- C8: whenever the engine returns a failure status, the
caller-supplied output parameter `Y` still holds its prior value: the
result is exchanged into `Y` only on the success path. -/
theorem c8_output_untouched_on_failure :
    ∀ (oracle : Nat → Nat) (D G : Nat) (xdp : List Nat) (P y0 : Nat),
      (runE oracle D G xdp P y0).err ≠ 0 →
      (runE oracle D G xdp P y0).y = y0 := by
  intro oracle D G xdp P y0 herr
  have hp := presF_runBody oracle D G xdp P y0
  simp only [runE] at herr ⊢
  cases hb : runBody oracle D G xdp P y0 with
  | ok st =>
    rw [hb] at herr
    exact absurd rfl herr
  | error e =>
    obtain ⟨e1, e2, e3⟩ := e
    rw [hb] at hp
    exact hp.1

/-- C8 witness: failing the very first allocation leaves `Y = 77`. -/
theorem c8_witness :
    (runE (fun k => if k = 0 then 2 else 0) 28 4 [13] 497 77).err ≠ 0 ∧
    (runE (fun k => if k = 0 then 2 else 0) 28 4 [13] 497 77).y = 77 :=
  ⟨by decide,
   c8_output_untouched_on_failure (fun k => if k = 0 then 2 else 0) 28 4 [13]
     497 77 (by decide)⟩

/-- C9: the bit-scanning loop terminates within `DIGIT_BIT * used + 1`
iterations (the fuel built into the engine suffices for every input,
so the engine always produces a result), and the trailing flush
performs exactly `bitcpy` square-and-reduce steps. -/
theorem c9_scan_terminates :
    ∀ (D G P : Nat) (dp : List Nat), 1 ≤ D →
      (f_mp_exptmod D G dp P).isSome = true ∧
      ∀ M1 w c r bb, (flushLoopC P M1 w c r bb).2 = c := by
  intro D G P dp hD
  constructor
  · unfold f_mp_exptmod
    rw [engineScan_eq D G P dp hD]
    rfl
  · intro M1 w c r bb
    exact flushLoopC_count P M1 w c r bb

/-- C9 witness: the concrete run `G = 4`, `X = 13`, `P = 497`
terminates, and a flush of a 1-bit window squares exactly once. -/
theorem c9_witness :
    (f_mp_exptmod 28 4 [13] 497).isSome = true ∧
    (flushLoopC 497 4 2 1 120 2).2 = 1 :=
  ⟨(c9_scan_terminates 28 4 497 [13] (by decide)).1,
   (c9_scan_terminates 28 4 497 [13] (by decide)).2 4 2 1 120 2⟩

/-- C10: no kernel write of any run — on any input, under any failure
injection — targets the input operands `G`, `X` or `P`: they are only
read. -/
theorem c10_operands_unchanged :
    ∀ (oracle : Nat → Nat) (D G : Nat) (xdp : List Nat) (P y0 : Nat),
      ∀ c ∈ (runE oracle D G xdp P y0).writes,
        c ≠ Cell.gv ∧ c ≠ Cell.xv ∧ c ≠ Cell.pv := by
  intro oracle D G xdp P y0 c hc
  have hp := presF_runBody oracle D G xdp P y0
  simp only [runE] at hc
  cases hb : runBody oracle D G xdp P y0 with
  | ok st =>
    rw [hb] at hc hp
    exact hp c hc
  | error e =>
    obtain ⟨e1, e2, e3⟩ := e
    rw [hb] at hc hp
    exact hp.2 c hc

/-- C10 witness: the successful run writes `Y` (by the final
exchange), and that destination is none of `G`, `X`, `P`. -/
theorem c10_witness :
    Cell.yv ≠ Cell.gv ∧ Cell.yv ≠ Cell.xv ∧ Cell.yv ≠ Cell.pv :=
  c10_operands_unchanged (fun _ => 0) 28 4 [13] 497 0 Cell.yv (by decide)

end ExptMod
